import Mathlib

/-
Verification of the intrusive singly-linked list of yp_list.h
(yarp utility list). Node references are modelled as natural-number
addresses; an absent/NULL reference is `none`. Node memory is a total
map from addresses to consumer records, each embedding the link node as
its first field (structural embedding, as described in the header
comment of yp_list.h).

The header file declares the five operations but their bodies live in a
translation unit that is not part of the sources at hand, so the bodies
below are modelled from the specification text (each such definition is
marked in its doc comment).
-/

/-- Translated from the source (yp_list.h): a node in the linked list.
It holds only the forward reference to the next node, `none` when this
is the last node. -/
structure yp_list_node_t where
  next : Option Nat

/-- A consumer-defined record embedding a `yp_list_node_t` as its first
field, together with an arbitrary payload (the extension pattern shown
in the header comment of yp_list.h, e.g. `yp_int_node_t`). -/
structure yp_record (α : Type) where
  node : yp_list_node_t
  payload : α

/-- Node memory: every address holds a consumer record. -/
def Heap (α : Type) : Type := Nat → yp_record α

/-- Translated from the source (yp_list.h): the overall linked list,
keeping a pointer to the head and tail. -/
structure yp_list_t where
  head : Option Nat
  tail : Option Nat

/-- Write the `next` field of the node embedded at address `a`, leaving
every other address and the payload at `a` unchanged. -/
def setNext {α : Type} (h : Heap α) (a : Nat) (v : Option Nat) : Heap α :=
  fun b => if b = a then { h a with node := ⟨v⟩ } else h b

/-- Modelled from the spec: the body of `yp_list_init` is absent from
the sources (only its declaration is). Spec 4.2: sets `head` and `tail`
to the absent reference; no allocation performed. The initialized
header value: -/
def yp_list_init : yp_list_t := ⟨none, none⟩

/-- Modelled from the spec: the body of `yp_list_empty_p` is absent
from the sources. Spec 4.3: returns true iff `head` is absent. -/
def yp_list_empty_p (l : yp_list_t) : Bool := l.head.isNone

/-- Modelled from the spec: the body of `yp_list_append` is absent from
the sources. Spec 4.4: sets the appended node's `next` to the absent
reference; if the list is empty (per 4.3) sets both `head` and `tail`
to the new node, otherwise links the current tail's `next` to the new
node and updates `tail`. The final arm (non-empty head with absent
tail) is unreachable under INV-1; dereferencing the absent tail there
is undefined behavior in the source, modelled as writing nothing. -/
def yp_list_append {α : Type} (h : Heap α) (l : yp_list_t) (n : Nat) :
    Heap α × yp_list_t :=
  let h1 := setNext h n none
  if yp_list_empty_p l then
    (h1, ⟨some n, some n⟩)
  else
    match l.tail with
    | some t => (setNext h1 t (some n), ⟨l.head, some n⟩)
    | none => (h1, ⟨l.head, some n⟩)

/-- Allocator-level state: which addresses currently hold an allocated
list header, together with the node memory. Used to express the
lifecycle operations (`yp_list_alloc`, `yp_list_free`) and their frame
conditions. -/
structure yp_alloc_state (α : Type) where
  lists : Nat → Option yp_list_t
  nodes : Heap α

/-- Modelled from the spec: the body of `yp_list_alloc` is absent from
the sources. Spec 4.1: obtains a fresh uninitialized block for a list
header, or fails with an absent/null handle when the underlying
allocator cannot satisfy the request. `ok` is whether the allocator can
satisfy the request, `fresh` the address it would hand out, and `junk`
the indeterminate initial contents of the uninitialized header. -/
def yp_list_alloc {α : Type} (s : yp_alloc_state α) (ok : Bool)
    (fresh : Nat) (junk : yp_list_t) : yp_alloc_state α × Option Nat :=
  if ok then
    ({ s with lists := fun a => if a = fresh then some junk else s.lists a },
     some fresh)
  else (s, none)

/-- Modelled from the spec: the body of `yp_list_free` is absent from
the sources. Spec 4.5: releases only the list's own header memory; the
chain of attached nodes is not walked or freed. -/
def yp_list_free {α : Type} (s : yp_alloc_state α) (addr : Nat) :
    yp_alloc_state α :=
  { s with lists := fun a => if a = addr then none else s.lists a }

/-- `yp_list_init` acting on an allocated header at `addr` inside the
allocator-level state (spec 4.2: writes the canonical empty header in
place, performing no allocation). -/
def yp_list_initAt {α : Type} (s : yp_alloc_state α) (addr : Nat) :
    yp_alloc_state α :=
  { s with lists := fun a => if a = addr then some yp_list_init else s.lists a }

/-- Consumer traversal (spec section 6): walk from a reference via
`next` until absent. The fuel argument bounds the number of steps
taken, making the walk total. -/
def traverseFrom {α : Type} (h : Heap α) : Nat → Option Nat → List Nat
  | 0, _ => []
  | _ + 1, none => []
  | fuel + 1, some a => a :: traverseFrom h fuel (h a).node.next

/-- A chain segment: starting from reference `p`, the `next` fields
thread exactly through the addresses in `ns`, ending at reference
`q`. -/
def chainSeg {α : Type} (h : Heap α) : Option Nat → List Nat → Option Nat → Prop
  | p, [], q => p = q
  | p, a :: rest, q => p = some a ∧ chainSeg h (h a).node.next rest q

/-- The list states reachable by `yp_list_init` followed by a finite
sequence of appends of fresh nodes; `ns` records the appended
addresses in order. Freshness of each appended node (spec 4.4
precondition: not currently a member of any list) is `n ∉ ns`. -/
inductive Reaches {α : Type} : Heap α → yp_list_t → List Nat → Prop
  | init (h : Heap α) : Reaches h yp_list_init []
  | step {h : Heap α} {l : yp_list_t} {ns : List Nat} (n : Nat) :
      Reaches h l ns → n ∉ ns →
      Reaches (yp_list_append h l n).1 (yp_list_append h l n).2 (ns ++ [n])

/-- Append a whole sequence of nodes, in order (the consumer-driven
usage pattern from the header comment and spec section 8). -/
def appendAll {α : Type} (h : Heap α) (l : yp_list_t) : List Nat → Heap α × yp_list_t
  | [] => (h, l)
  | n :: rest => appendAll (yp_list_append h l n).1 (yp_list_append h l n).2 rest

/-- The reachability invariant: the appended addresses `ns` are exactly
the chain threaded from `head` to the absent terminator, `tail` is the
last appended address, and no address was appended twice. -/
def listInv {α : Type} (h : Heap α) (l : yp_list_t) (ns : List Nat) : Prop :=
  chainSeg h l.head ns none ∧ l.tail = ns.getLast? ∧ ns.Nodup

/-- A concrete node memory over trivial payloads, for witnesses. -/
def sampleHeap : Heap Unit := fun _ => ⟨⟨none⟩, ()⟩

/-- A concrete allocator-level state with one allocated header (holding
indeterminate junk contents) at address 0, for witnesses. -/
def sampleAlloc : yp_alloc_state Unit :=
  ⟨fun a => if a = 0 then some ⟨some 5, some 7⟩ else none, sampleHeap⟩

/-- The state after appending node 0 to a freshly initialized list, for
witnesses. -/
def sampleStep1 : Heap Unit × yp_list_t := yp_list_append sampleHeap yp_list_init 0

theorem setNext_eq {α : Type} (h : Heap α) (a : Nat) (v : Option Nat) :
    setNext h a v a = { h a with node := ⟨v⟩ } := by
  simp [setNext]

theorem setNext_ne {α : Type} (h : Heap α) (a b : Nat) (v : Option Nat)
    (hb : b ≠ a) : setNext h a v b = h b := by
  simp [setNext, hb]

theorem chainSeg_congr {α : Type} {h h2 : Heap α} :
    ∀ {ns : List Nat} {p q : Option Nat},
      (∀ a ∈ ns, h2 a = h a) → chainSeg h p ns q → chainSeg h2 p ns q := by
  intro ns
  induction ns with
  | nil => intro p q _ hc; exact hc
  | cons a rest ih =>
      intro p q hagree hc
      obtain ⟨hp, hrest⟩ := hc
      refine ⟨hp, ?_⟩
      rw [hagree a (List.mem_cons_self a rest)]
      exact ih (fun b hb => hagree b (List.mem_cons_of_mem a hb)) hrest

theorem chainSeg_snoc {α : Type} {h : Heap α} :
    ∀ {ns : List Nat} {p : Option Nat} {n : Nat},
      chainSeg h p ns (some n) → (h n).node.next = none →
      chainSeg h p (ns ++ [n]) none := by
  intro ns
  induction ns with
  | nil =>
      intro p n hc hn
      exact ⟨hc, hn⟩
  | cons a rest ih =>
      intro p n hc hn
      obtain ⟨hp, hrest⟩ := hc
      exact ⟨hp, ih hrest hn⟩

theorem getLast_mem_of_eq {l : List Nat} {t : Nat}
    (h : l.getLast? = some t) : t ∈ l := by
  obtain ⟨hne, hEq⟩ := List.mem_getLast?_eq_getLast (Option.mem_def.mpr h)
  subst hEq
  exact List.getLast_mem hne

theorem chainSeg_retarget {α : Type} {h : Heap α} {v : Option Nat} :
    ∀ {ns : List Nat} {p : Option Nat} {t : Nat},
      ns.Nodup → chainSeg h p ns none → ns.getLast? = some t →
      chainSeg (setNext h t v) p ns v := by
  intro ns
  induction ns with
  | nil =>
      intro p t _ _ hlast
      simp at hlast
  | cons a rest ih =>
      intro p t hnd hc hlast
      obtain ⟨hp, hrest⟩ := hc
      cases rest with
      | nil =>
          obtain rfl : a = t := by simpa using hlast
          refine ⟨hp, ?_⟩
          show chainSeg _ ((setNext h a v) a).node.next [] v
          simp [chainSeg, setNext]
      | cons b rest2 =>
          have hlast2 : (b :: rest2).getLast? = some t := by
            rw [List.getLast?_cons_cons] at hlast
            exact hlast
          have ht : t ∈ b :: rest2 := getLast_mem_of_eq hlast2
          have hat : a ≠ t := by
            intro hEq
            exact (List.nodup_cons.mp hnd).1 (hEq ▸ ht)
          refine ⟨hp, ?_⟩
          rw [setNext_ne h t a v hat]
          exact ih (List.nodup_cons.mp hnd).2 hrest hlast2

theorem reaches_inv {α : Type} {h : Heap α} {l : yp_list_t} {ns : List Nat}
    (hr : Reaches h l ns) : listInv h l ns := by
  induction hr with
  | init h0 =>
      exact ⟨rfl, rfl, List.nodup_nil⟩
  | step n hr hfresh ih =>
      rename_i h l ns
      obtain ⟨hchain, htail, hnd⟩ := ih
      by_cases hemp : yp_list_empty_p l
      · -- empty branch: the chain so far must be empty
        have hhead : l.head = none := by
          simpa [yp_list_empty_p, Option.isNone_iff_eq_none] using hemp
        have hns : ns = [] := by
          cases ns with
          | nil => rfl
          | cons a rest =>
              obtain ⟨hp, _⟩ := hchain
              rw [hhead] at hp
              cases hp
        subst hns
        refine ⟨?_, ?_, ?_⟩
        · show chainSeg _ (yp_list_append h l n).2.head ([] ++ [n]) none
          simp only [yp_list_append, if_pos hemp, List.nil_append]
          exact ⟨rfl, by simp [chainSeg, setNext]⟩
        · simp [yp_list_append, if_pos hemp]
        · simp
      · -- non-empty branch
        have hne : ns ≠ [] := by
          intro hns
          subst hns
          have : l.head = none := hchain
          simp [yp_list_empty_p, this] at hemp
        obtain ⟨t, ht⟩ : ∃ t, ns.getLast? = some t := by
          cases hg : ns.getLast? with
          | none => exact absurd (List.getLast?_eq_none_iff.mp hg) hne
          | some x => exact ⟨x, rfl⟩
        have htmem : t ∈ ns := getLast_mem_of_eq ht
        have hnt : n ≠ t := fun hEq => hfresh (hEq ▸ htmem)
        have htl : l.tail = some t := htail.trans ht
        have happ : yp_list_append h l n =
            (setNext (setNext h n none) t (some n), ⟨l.head, some n⟩) := by
          rw [yp_list_append, if_neg hemp, htl]
        refine ⟨?_, ?_, ?_⟩
        · rw [happ]
          show chainSeg _ l.head (ns ++ [n]) none
          have step1 : chainSeg (setNext h n none) l.head ns none :=
            chainSeg_congr
              (fun a ha => setNext_ne h n a none (fun hEq => hfresh (hEq ▸ ha)))
              hchain
          have step2 : chainSeg (setNext (setNext h n none) t (some n))
              l.head ns (some n) :=
            chainSeg_retarget hnd step1 ht
          refine chainSeg_snoc step2 ?_
          show (setNext (setNext h n none) t (some n) n).node.next = none
          rw [setNext_ne _ t n (some n) hnt, setNext_eq]
        · rw [happ]
          simp
        · simpa [List.nodup_append] using ⟨hnd, fun hmem => hfresh hmem⟩

theorem chainSeg_traverse {α : Type} {h : Heap α} :
    ∀ {ns : List Nat} {p : Option Nat} {fuel : Nat},
      chainSeg h p ns none → ns.length ≤ fuel →
      traverseFrom h fuel p = ns := by
  intro ns
  induction ns with
  | nil =>
      intro p fuel hc _
      cases hc
      cases fuel with
      | zero => rfl
      | succ k => rfl
  | cons a rest ih =>
      intro p fuel hc hlen
      obtain ⟨hp, hrest⟩ := hc
      subst hp
      cases fuel with
      | zero => exact absurd hlen (by simp)
      | succ k =>
          show a :: traverseFrom h k (h a).node.next = a :: rest
          rw [ih hrest (Nat.le_of_succ_le_succ hlen)]

theorem chainSeg_last_next {α : Type} {h : Heap α} :
    ∀ {ns : List Nat} {p : Option Nat} {t : Nat},
      chainSeg h p ns none → ns.getLast? = some t → (h t).node.next = none := by
  intro ns
  induction ns with
  | nil =>
      intro p t _ hlast
      simp at hlast
  | cons a rest ih =>
      intro p t hc hlast
      obtain ⟨_, hrest⟩ := hc
      cases rest with
      | nil =>
          obtain rfl : a = t := by simpa using hlast
          exact hrest
      | cons b rest2 =>
          rw [List.getLast?_cons_cons] at hlast
          exact ih hrest hlast

theorem setNext_payload {α : Type} (h : Heap α) (a b : Nat) (v : Option Nat) :
    ((setNext h a v) b).payload = (h b).payload := by
  by_cases hba : b = a
  · subst hba
    rw [setNext_eq]
  · rw [setNext_ne _ _ _ _ hba]

theorem reaches_appendAll {α : Type} :
    ∀ {ms : List Nat} {h : Heap α} {l : yp_list_t} {ns : List Nat},
      Reaches h l ns → (∀ m ∈ ms, m ∉ ns) → ms.Nodup →
      Reaches (appendAll h l ms).1 (appendAll h l ms).2 (ns ++ ms) := by
  intro ms
  induction ms with
  | nil =>
      intro h l ns hr _ _
      simpa [appendAll] using hr
  | cons m rest ih =>
      intro h l ns hr hdisj hnd
      have hstep : Reaches (yp_list_append h l m).1 (yp_list_append h l m).2
          (ns ++ [m]) :=
        Reaches.step m hr (hdisj m (List.mem_cons_self m rest))
      have hdisj2 : ∀ x ∈ rest, x ∉ ns ++ [m] := by
        intro x hx hmem
        rcases List.mem_append.mp hmem with hin | hin
        · exact hdisj x (List.mem_cons_of_mem m hx) hin
        · have : x = m := by simpa using hin
          exact (List.nodup_cons.mp hnd).1 (this ▸ hx)
      have := ih hstep hdisj2 (List.nodup_cons.mp hnd).2
      simpa [appendAll, List.append_assoc] using this

/-- C5: for every valid (allocated) list reference, initialization sets
both head and tail to the absent reference, performs no allocation (the
set of allocated headers and all node memory are unchanged), and the
list is empty immediately afterwards. -/
theorem yp_list_init_spec {α : Type} (s : yp_alloc_state α) (addr : Nat)
    (j : yp_list_t) (halloc : s.lists addr = some j) :
    (yp_list_initAt s addr).lists addr = some yp_list_init ∧
    yp_list_init.head = none ∧
    yp_list_init.tail = none ∧
    yp_list_empty_p yp_list_init = true ∧
    (yp_list_initAt s addr).nodes = s.nodes ∧
    (∀ a : Nat, ((yp_list_initAt s addr).lists a).isSome = (s.lists a).isSome) := by
  refine ⟨by simp [yp_list_initAt], rfl, rfl, rfl, rfl, ?_⟩
  intro a
  by_cases ha : a = addr
  · subst ha
    simp [yp_list_initAt, halloc]
  · simp [yp_list_initAt, ha]

/-- Witness for C5 at a concrete allocated state. -/
theorem yp_list_init_spec_witness :
    (yp_list_initAt sampleAlloc 0).lists 0 = some yp_list_init ∧
    yp_list_init.head = none ∧
    yp_list_init.tail = none ∧
    yp_list_empty_p yp_list_init = true ∧
    (yp_list_initAt sampleAlloc 0).nodes = sampleAlloc.nodes ∧
    (∀ a : Nat, ((yp_list_initAt sampleAlloc 0).lists a).isSome =
      (sampleAlloc.lists a).isSome) :=
  yp_list_init_spec sampleAlloc 0 ⟨some 5, some 7⟩ (by simp [sampleAlloc])

/-- C6: the emptiness query returns true exactly when head is absent,
and under INV-1 this is further equivalent to tail being absent. The
query is a pure function of the header (it takes and returns no state). -/
theorem yp_list_empty_p_spec (l : yp_list_t) :
    (yp_list_empty_p l = true ↔ l.head = none) ∧
    ((l.head = none ↔ l.tail = none) →
      (yp_list_empty_p l = true ↔ l.tail = none)) := by
  constructor
  · simp [yp_list_empty_p, Option.isNone_iff_eq_none]
  · intro hinv
    simp [yp_list_empty_p, Option.isNone_iff_eq_none, hinv]

/-- Witness for C6 at the freshly initialized header. -/
theorem yp_list_empty_p_spec_witness :
    yp_list_empty_p yp_list_init = true ↔ yp_list_init.tail = none :=
  (yp_list_empty_p_spec yp_list_init).2 (by simp [yp_list_init])

/-- C3: appending a node to an empty list sets the node's next to the
absent reference, makes head and tail both reference that node, and
makes the list non-empty. -/
theorem yp_list_append_empty_spec {α : Type} (h : Heap α) (l : yp_list_t)
    (n : Nat) (hemp : yp_list_empty_p l = true) :
    ((yp_list_append h l n).1 n).node.next = none ∧
    (yp_list_append h l n).2.head = some n ∧
    (yp_list_append h l n).2.tail = some n ∧
    yp_list_empty_p (yp_list_append h l n).2 = false := by
  have hhead : l.head = none := by
    simpa [yp_list_empty_p, Option.isNone_iff_eq_none] using hemp
  simp [yp_list_append, yp_list_empty_p, hhead, setNext]

/-- Witness for C3: appending node 0 to a freshly initialized list. -/
theorem yp_list_append_empty_spec_witness :
    ((yp_list_append sampleHeap yp_list_init 0).1 0).node.next = none ∧
    (yp_list_append sampleHeap yp_list_init 0).2.head = some 0 ∧
    (yp_list_append sampleHeap yp_list_init 0).2.tail = some 0 ∧
    yp_list_empty_p (yp_list_append sampleHeap yp_list_init 0).2 = false :=
  yp_list_append_empty_spec sampleHeap yp_list_init 0 rfl

/-- C4: appending a fresh node to a non-empty list sets the node's next
to the absent reference, links the current tail's next to the node, and
updates tail to the node; moreover every append (on any list state)
leaves tail referencing the node just appended, so after k appends the
tail is the most recently appended node. -/
theorem yp_list_append_nonempty_spec {α : Type} (h : Heap α) (l : yp_list_t)
    (n t : Nat) (hemp : yp_list_empty_p l = false) (htl : l.tail = some t)
    (hfresh : n ≠ t) :
    ((yp_list_append h l n).1 n).node.next = none ∧
    ((yp_list_append h l n).1 t).node.next = some n ∧
    (yp_list_append h l n).2.tail = some n ∧
    (yp_list_append h l n).2.head = l.head ∧
    (∀ (h2 : Heap α) (l2 : yp_list_t) (m : Nat),
      (yp_list_append h2 l2 m).2.tail = some m) := by
  have happ : yp_list_append h l n =
      (setNext (setNext h n none) t (some n), ⟨l.head, some n⟩) := by
    rw [yp_list_append, if_neg (by simp [hemp]), htl]
  refine ⟨?_, ?_, by rw [happ], by rw [happ], ?_⟩
  · rw [happ]
    show (setNext (setNext h n none) t (some n) n).node.next = none
    rw [setNext_ne _ t n (some n) hfresh, setNext_eq]
  · rw [happ]
    show (setNext (setNext h n none) t (some n) t).node.next = some n
    rw [setNext_eq]
  · intro h2 l2 m
    rw [yp_list_append]
    by_cases he : yp_list_empty_p l2
    · simp [he]
    · cases htl2 : l2.tail with
      | none => simp [he, htl2]
      | some u => simp [he, htl2]

/-- Witness for C4: appending node 1 after node 0. -/
theorem yp_list_append_nonempty_spec_witness :
    ((yp_list_append sampleStep1.1 sampleStep1.2 1).1 1).node.next = none ∧
    ((yp_list_append sampleStep1.1 sampleStep1.2 1).1 0).node.next = some 1 ∧
    (yp_list_append sampleStep1.1 sampleStep1.2 1).2.tail = some 1 ∧
    (yp_list_append sampleStep1.1 sampleStep1.2 1).2.head = sampleStep1.2.head ∧
    (∀ (h2 : Heap Unit) (l2 : yp_list_t) (m : Nat),
      (yp_list_append h2 l2 m).2.tail = some m) :=
  yp_list_append_nonempty_spec sampleStep1.1 sampleStep1.2 1 0 rfl rfl
    (by decide)

/-- C1: appending three distinct fresh nodes to a freshly initialized
list and then traversing from head yields exactly those nodes in append
order, and the traversal terminates after the third node because its
next reference is absent. -/
theorem yp_list_append_order_spec {α : Type} (h : Heap α) (n1 n2 n3 : Nat)
    (h12 : n1 ≠ n2) (h13 : n1 ≠ n3) (h23 : n2 ≠ n3) :
    traverseFrom (appendAll h yp_list_init [n1, n2, n3]).1 3
      (appendAll h yp_list_init [n1, n2, n3]).2.head = [n1, n2, n3] ∧
    ((appendAll h yp_list_init [n1, n2, n3]).1 n3).node.next = none := by
  have hr : Reaches (appendAll h yp_list_init [n1, n2, n3]).1
      (appendAll h yp_list_init [n1, n2, n3]).2 ([] ++ [n1, n2, n3]) :=
    reaches_appendAll (Reaches.init h) (by simp)
      (by simp [List.nodup_cons, h12, h13, h23])
  rw [List.nil_append] at hr
  obtain ⟨hc, ht, hnd⟩ := reaches_inv hr
  constructor
  · exact chainSeg_traverse hc (by simp)
  · exact chainSeg_last_next hc (by simp)

/-- Witness for C1 with nodes 0, 1, 2. -/
theorem yp_list_append_order_spec_witness :
    traverseFrom (appendAll sampleHeap yp_list_init [0, 1, 2]).1 3
      (appendAll sampleHeap yp_list_init [0, 1, 2]).2.head = [0, 1, 2] ∧
    ((appendAll sampleHeap yp_list_init [0, 1, 2]).1 2).node.next = none :=
  yp_list_append_order_spec sampleHeap 0 1 2 (by decide) (by decide) (by decide)

/-- C7 (INV-1): in every state reachable by init followed by a finite
sequence of appends of fresh nodes, head is absent iff tail is absent;
init establishes the invariant and append preserves it. -/
theorem yp_list_inv1_spec {α : Type} {h : Heap α} {l : yp_list_t}
    {ns : List Nat} (hr : Reaches h l ns) :
    (l.head = none ↔ l.tail = none) := by
  obtain ⟨hc, ht, _⟩ := reaches_inv hr
  cases ns with
  | nil =>
      have hh : l.head = none := hc
      simp [hh, ht]
  | cons a rest =>
      obtain ⟨hp, _⟩ := hc
      rw [hp, ht]
      simp [List.getLast?_eq_none_iff]

/-- Witness for C7 at the freshly initialized state. -/
theorem yp_list_inv1_spec_witness :
    yp_list_init.head = none ↔ yp_list_init.tail = none :=
  yp_list_inv1_spec (Reaches.init sampleHeap)

/-- C8 (INV-2): in every state reachable by init followed by a finite
sequence of appends of fresh nodes, the chain from head threads exactly
through the appended nodes without repetition (no cycles), ends at
tail, whose next is absent, and the consumer walk from head visits
exactly those nodes. -/
theorem yp_list_inv2_spec {α : Type} {h : Heap α} {l : yp_list_t}
    {ns : List Nat} (hr : Reaches h l ns) :
    chainSeg h l.head ns none ∧
    ns.Nodup ∧
    l.tail = ns.getLast? ∧
    (∀ t : Nat, l.tail = some t → (h t).node.next = none) ∧
    traverseFrom h ns.length l.head = ns := by
  obtain ⟨hc, ht, hnd⟩ := reaches_inv hr
  refine ⟨hc, hnd, ht, ?_, chainSeg_traverse hc (le_refl _)⟩
  intro t htl
  exact chainSeg_last_next hc (ht.symm.trans htl)

/-- Witness for C8 after one append. -/
theorem yp_list_inv2_spec_witness :
    chainSeg (yp_list_append sampleHeap yp_list_init 0).1
      (yp_list_append sampleHeap yp_list_init 0).2.head [0] none ∧
    ([0] : List Nat).Nodup ∧
    (yp_list_append sampleHeap yp_list_init 0).2.tail =
      ([0] : List Nat).getLast? ∧
    (∀ t : Nat, (yp_list_append sampleHeap yp_list_init 0).2.tail = some t →
      ((yp_list_append sampleHeap yp_list_init 0).1 t).node.next = none) ∧
    traverseFrom (yp_list_append sampleHeap yp_list_init 0).1
      ([0] : List Nat).length
      (yp_list_append sampleHeap yp_list_init 0).2.head = [0] :=
  yp_list_inv2_spec (Reaches.step 0 (Reaches.init sampleHeap) (by simp))

/-- C2: freeing a list releases only the list's own header: the header
at the freed address is gone, every other allocated header is
unchanged, and all node memory — links and consumer payloads alike —
is left untouched. -/
theorem yp_list_free_spec {α : Type} (s : yp_alloc_state α) (addr : Nat) :
    (yp_list_free s addr).lists addr = none ∧
    (∀ a : Nat, a ≠ addr → (yp_list_free s addr).lists a = s.lists a) ∧
    (yp_list_free s addr).nodes = s.nodes ∧
    (∀ a : Nat, ((yp_list_free s addr).nodes a).node = (s.nodes a).node ∧
      ((yp_list_free s addr).nodes a).payload = (s.nodes a).payload) := by
  refine ⟨by simp [yp_list_free], ?_, rfl, fun a => ⟨rfl, rfl⟩⟩
  intro a ha
  simp [yp_list_free, ha]

/-- Witness for C2 at a concrete allocator state. -/
theorem yp_list_free_spec_witness :
    (yp_list_free sampleAlloc 0).lists 0 = none ∧
    (yp_list_free sampleAlloc 0).lists 1 = sampleAlloc.lists 1 ∧
    (yp_list_free sampleAlloc 0).nodes = sampleAlloc.nodes :=
  ⟨(yp_list_free_spec sampleAlloc 0).1,
   (yp_list_free_spec sampleAlloc 0).2.1 1 (by decide),
   (yp_list_free_spec sampleAlloc 0).2.2.1⟩

/-- C9: allocation either yields a fresh uninitialized header (when the
underlying allocator can satisfy the request) or signals failure with
an absent handle, changing nothing; this absent result is the only
failure signal in the interface — init, emptiness query, append and
free are total and return no error indication in the model. -/
theorem yp_list_alloc_spec {α : Type} (s : yp_alloc_state α) (fresh : Nat)
    (junk : yp_list_t) :
    ((yp_list_alloc s true fresh junk).2 = some fresh ∧
     (yp_list_alloc s true fresh junk).1.lists fresh = some junk ∧
     (yp_list_alloc s true fresh junk).1.nodes = s.nodes) ∧
    ((yp_list_alloc s false fresh junk).2 = none ∧
     (yp_list_alloc s false fresh junk).1 = s) := by
  exact ⟨⟨rfl, by simp [yp_list_alloc], rfl⟩, rfl, rfl⟩

/-- C10: append writes only the appended node's next field and (when
the list is non-empty) the previous tail's next field; the payload of
every consumer record is untouched, and every other address's record is
completely unchanged. -/
theorem yp_list_append_frame_spec {α : Type} (h : Heap α) (l : yp_list_t)
    (n : Nat) :
    (∀ a : Nat, ((yp_list_append h l n).1 a).payload = (h a).payload) ∧
    (∀ a : Nat, a ≠ n → l.tail ≠ some a → (yp_list_append h l n).1 a = h a) := by
  have hcases : (yp_list_append h l n).1 = setNext h n none ∨
      ∃ t, l.tail = some t ∧
        (yp_list_append h l n).1 = setNext (setNext h n none) t (some n) := by
    by_cases he : yp_list_empty_p l
    · left
      simp [yp_list_append, he]
    · cases htl : l.tail with
      | none =>
          left
          simp [yp_list_append, he, htl]
      | some t =>
          right
          exact ⟨t, rfl, by simp [yp_list_append, he, htl]⟩
  constructor
  · intro a
    rcases hcases with hh | ⟨t, htl, hh⟩
    · rw [hh]
      exact setNext_payload h n a none
    · rw [hh, setNext_payload, setNext_payload]
  · intro a han htla
    rcases hcases with hh | ⟨t, htl, hh⟩
    · rw [hh]
      exact setNext_ne h n a none han
    · have hat : a ≠ t := fun hEq => htla (by rw [hEq]; exact htl)
      rw [hh, setNext_ne _ t a _ hat, setNext_ne _ n a _ han]

/-- Witness for C10: after appending node 0 to a fresh list, address 1
is completely unchanged. -/
theorem yp_list_append_frame_spec_witness :
    ((yp_list_append sampleHeap yp_list_init 0).1 1).payload =
      (sampleHeap 1).payload ∧
    (yp_list_append sampleHeap yp_list_init 0).1 1 = sampleHeap 1 :=
  ⟨(yp_list_append_frame_spec sampleHeap yp_list_init 0).1 1,
   (yp_list_append_frame_spec sampleHeap yp_list_init 0).2 1 (by decide)
     (by simp [yp_list_init])⟩
